import Mathlib

/-!
Verification of the `ipaddress` repository (file `ip_calc.py`), a pure IPv4/CIDR
calculator.  Python strings are modelled as lists of characters, Python runtime
faults (`IndexError`, `ValueError`) as `none` in an `Option` result, and Python
integers as `Nat` where the source values are provably non-negative decimal
parses, and as `Int` where the source performs subtraction.
-/

set_option maxRecDepth 4000

/-- A Python string, modelled as its list of characters. -/
abbrev PyStr := List Char

/-- Model of Python `s.split(sep)` / `s.rsplit(sep)` (no maxsplit, so the two
agree) for a one-character separator: `''.split(sep) == ['']`, and each
occurrence of the separator starts a new chunk. -/
def pySplit (sep : Char) : PyStr → List PyStr
  | [] => [[]]
  | c :: cs =>
    let rest := pySplit sep cs
    if c = sep then [] :: rest else (c :: rest.headD []) :: rest.tail

/-- Model of Python `int(s)` for the decimal digit strings the raw-address
grammar `A.B.C.D/P` supplies (octets and prefix are decimal digit strings).
A non-digit or empty string raises `ValueError` in Python, modelled as `none`. -/
def pyInt (s : PyStr) : Option Nat :=
  if s.isEmpty then none
  else if s.all Char.isDigit then
    some (s.foldl (fun n c => n * 10 + (c.toNat - 48)) 0)
  else none

/-- Fuel-driven decimal digits of a natural number (fuel `n + 1` always
suffices, see `natReprL`). -/
def natReprAux : Nat → Nat → PyStr
  | 0, _ => []
  | fuel + 1, n =>
    if n < 10 then [Nat.digitChar n]
    else natReprAux fuel (n / 10) ++ [Nat.digitChar (n % 10)]

/-- Model of Python `str(n)` for a non-negative integer. -/
def natReprL (n : Nat) : PyStr := natReprAux (n + 1) n

/-- Model of Python `str(i)` for a possibly negative integer. -/
def intReprL (i : Int) : PyStr :=
  if i < 0 then '-' :: natReprL i.natAbs else natReprL i.toNat

/-- Model of Python `'.'.join(parts)`. -/
def joinDotted : List PyStr → PyStr
  | [] => []
  | [s] => s
  | s :: rest => s ++ '.' :: joinDotted rest

/-- The module-level constant `FULL_BYTE = 0b11111111` of `ip_calc.py`. -/
def FULL_BYTE : Nat := 255

/-- `get_ip_from_raw_address`: `raw_address.rsplit('/')[0]`, the address
portion of the raw string, returned verbatim. -/
def get_ip_from_raw_address (raw : PyStr) : PyStr :=
  (pySplit '/' raw).headD []

/-- Model of `list(map(int, parts))`: parses each chunk left to right,
faulting (`ValueError`) on the first non-numeric chunk. -/
def mapPyInt : List PyStr → Option (List Nat)
  | [] => some []
  | s :: rest => do
    let v ← pyInt s
    let vs ← mapPyInt rest
    return v :: vs

/-- `split_address`: split the address portion on `'.'` and parse each chunk
as a decimal integer. -/
def split_address (raw : PyStr) : Option (List Nat) :=
  mapPyInt (pySplit '.' (get_ip_from_raw_address raw))

/-- `join_address`: `'.'.join(map(str, bytes_lst))` for non-negative bytes. -/
def join_address (bytes_lst : List Nat) : PyStr :=
  joinDotted (bytes_lst.map natReprL)

/-- `join_address` as reached from the penultimate-usable computation, whose
list elements are Python ints that may be negative. -/
def join_address_int (bytes_lst : List Int) : PyStr :=
  joinDotted (bytes_lst.map intReprL)

/-- `int(raw_address.rsplit('/')[1])`: the parsed prefix length.  A missing
`'/'` part raises `IndexError`, a non-numeric part `ValueError`: both `none`. -/
def numBitsOf (raw : PyStr) : Option Nat :=
  (pySplit '/' raw)[1]? >>= pyInt

/-- Model of the Python statement `mask[i] += v`: an out-of-range index
raises `IndexError`, modelled as `none`. -/
def listAddAt (l : List Nat) (i : Nat) (v : Nat) : Option (List Nat) :=
  if i < l.length then some (l.set i (l.getD i 0 + v)) else none

/-- The loop of `get_network_mask`:
`for bit in range(num_bits): mask[bit // 8] += 1 << (7 - bit % 8)`. -/
def maskLoopAux : List Nat → List Nat → Option (List Nat)
  | mask, [] => some mask
  | mask, bit :: rest =>
    match listAddAt mask (bit / 8) (1 <<< (7 - bit % 8)) with
    | none => none
    | some m => maskLoopAux m rest

/-- `get_network_mask` after the prefix has been parsed: start from
`[0, 0, 0, 0]` and run the bit-setting loop. -/
def maskLoop (num_bits : Nat) : Option (List Nat) :=
  maskLoopAux [0, 0, 0, 0] (List.range num_bits)

/-- `get_network_mask`: parse the prefix out of the raw address and run the
mask loop. -/
def get_network_mask (raw : PyStr) : Option (List Nat) :=
  numBitsOf raw >>= maskLoop

/-- `invert_address`: XOR every byte with `FULL_BYTE`. -/
def invert_address (bytes_lst : List Nat) : List Nat :=
  bytes_lst.map (fun byte => byte ^^^ FULL_BYTE)

/-- The loop of `get_network_address_from_raw_address`:
`for idx in range(4): network_address[idx] = ip_address[idx] & mask[idx]`;
an input shorter than 4 raises `IndexError`. -/
def andLoop (ip mask : List Nat) : Option (List Nat) :=
  match ip, mask with
  | a0 :: a1 :: a2 :: a3 :: _, m0 :: m1 :: m2 :: m3 :: _ =>
    some [a0 &&& m0, a1 &&& m1, a2 &&& m2, a3 &&& m3]
  | _, _ => none

/-- The loop of `get_broadcast_address_from_raw_address`:
`for idx, byte in enumerate(ip_address): append(byte | broadcast_mask[idx])`;
faults when the mask runs out before the address does. -/
def orLoop : List Nat → List Nat → Option (List Nat)
  | [], _ => some []
  | byte :: rest, m :: ms => (orLoop rest ms).map (fun tail => (byte ||| m) :: tail)
  | _ :: _, [] => none

/-- `get_network_address_from_raw_address`. -/
def get_network_address_from_raw_address (raw : PyStr) : Option PyStr := do
  let ip_address ← split_address raw
  let mask ← get_network_mask raw
  let network_address ← andLoop ip_address mask
  return join_address network_address

/-- `get_broadcast_address_from_raw_address`. -/
def get_broadcast_address_from_raw_address (raw : PyStr) : Option PyStr := do
  let ip_address ← split_address (get_ip_from_raw_address raw)
  let network_mask ← get_network_mask raw
  let broadcast_address ← orLoop ip_address (invert_address network_mask)
  return join_address broadcast_address

/-- Model of `lst[-1] += 1`: faults (`IndexError`) on the empty list. -/
def incLast : List Nat → Option (List Nat)
  | [] => none
  | [x] => some [x + 1]
  | x :: xs => (incLast xs).map (fun t => x :: t)

/-- `get_first_usable_ip_address_from_raw_address`: re-parse the formatted
network address and increment its last byte. -/
def get_first_usable_ip_address_from_raw_address (raw : PyStr) : Option PyStr := do
  let s ← get_network_address_from_raw_address raw
  let network_address ← split_address s
  let na2 ← incLast network_address
  return join_address na2

/-- Model of `lst[-1] -= 1` on Python ints: faults on the empty list. -/
def decLastInt : List Int → Option (List Int)
  | [] => none
  | [x] => some [x - 1]
  | x :: xs => (decLastInt xs).map (fun t => x :: t)

/-- `get_penultimate_usable_ip_address_from_raw_address`: re-parse the
broadcast address, decrement the last byte, rebuild each byte as
`(byte | b[idx]) & b[idx]` over the same list, and decrement the last byte
again.  The decrements may go negative, so bytes are carried as `Int`. -/
def get_penultimate_usable_ip_address_from_raw_address (raw : PyStr) : Option PyStr := do
  let s ← get_broadcast_address_from_raw_address raw
  let broadcast_address ← split_address s
  let b1 ← decLastInt (broadcast_address.map Int.ofNat)
  let penultimate_ip := b1.map (fun byte => Int.land (Int.lor byte byte) byte)
  let pen2 ← decLastInt penultimate_ip
  return join_address_int pen2

/-- `get_number_of_usable_hosts_from_raw_address`:
`2 ** (32 - num_network_bits) - 2`.  For a prefix above 32 Python evaluates a
negative power, producing a float rather than an integer; that non-integer
outcome is modelled as `none`. -/
def get_number_of_usable_hosts_from_raw_address (raw : PyStr) : Option Int := do
  let num_network_bits ← numBitsOf raw
  if num_network_bits ≤ 32 then return ((2 : Int) ^ (32 - num_network_bits) - 2)
  else none

/-- `get_ip_class_from_raw_address`: classify by the first octet. -/
def get_ip_class_from_raw_address (raw : PyStr) : Option PyStr := do
  let ip_address ← split_address raw
  let a0 ← ip_address.head?
  return (if 1 ≤ a0 ∧ a0 ≤ 126 then ['A']
    else if 128 ≤ a0 ∧ a0 ≤ 191 then ['B']
    else if 192 ≤ a0 ∧ a0 ≤ 223 then ['C']
    else if 224 ≤ a0 ∧ a0 ≤ 239 then ['D']
    else if 240 ≤ a0 ∧ a0 ≤ 247 then ['E']
    else "Unknown class".toList)

/-- `check_private_ip_address_from_raw_address`.  Python short-circuits: the
second-block test reads `ip_address[1]` only when `ip_address[0] == 172`,
and the third-block test `ip_address[:2] == [192, 168]` never faults. -/
def check_private_ip_address_from_raw_address (raw : PyStr) : Option Bool := do
  let ip_address ← split_address raw
  let first ← ip_address.head?
  let is_second_block ←
    if first = 172 then (ip_address[1]?).map (fun a1 => decide (16 ≤ a1 ∧ a1 ≤ 31))
    else some false
  let is_third_block := decide (ip_address.take 2 = [192, 168])
  return (decide (first = 10) || is_second_block || is_third_block)

/-- Bit `i` of a 4-byte address, 0-indexed from the most-significant bit of
the first byte (the spec's bit numbering, 0..31). -/
def addrBit (l : List Nat) (i : Nat) : Bool :=
  (l.getD (i / 8) 0).testBit (7 - i % 8)

/-- The mask bytes for a valid prefix (total variant of `maskLoop`). -/
def maskB (p : Nat) : List Nat := (maskLoop p).getD [0, 0, 0, 0]

/-- Byte `j` of the mask for prefix `p`. -/
def mB (p j : Nat) : Nat := (maskB p).getD j 0

/-! ### Helper lemmas about splitting and joining -/

theorem pySplit_not_mem (sep : Char) (s : PyStr) (h : sep ∉ s) : pySplit sep s = [s] := by
  induction s with
  | nil => rfl
  | cons c cs ih =>
    have hc : c ≠ sep := fun hcs => h (hcs ▸ List.mem_cons_self c cs)
    have hcs : sep ∉ cs := fun hm => h (List.mem_cons_of_mem c hm)
    simp [pySplit, hc, ih hcs]

theorem pySplit_sep_cons (sep : Char) (r : PyStr) :
    pySplit sep (sep :: r) = [] :: pySplit sep r := by
  simp [pySplit]

theorem pySplit_append (sep : Char) (l r : PyStr) (h : sep ∉ l) :
    pySplit sep (l ++ sep :: r) = l :: pySplit sep r := by
  induction l with
  | nil => simpa using pySplit_sep_cons sep r
  | cons c cs ih =>
    have hc : c ≠ sep := fun hcs => h (hcs ▸ List.mem_cons_self c cs)
    have hcs : sep ∉ cs := fun hm => h (List.mem_cons_of_mem c hm)
    simp [pySplit, hc, ih hcs]

theorem pySplit_head_not_mem (sep : Char) (s : PyStr) :
    sep ∉ (pySplit sep s).headD [] := by
  induction s with
  | nil => simp [pySplit]
  | cons c cs ih =>
    by_cases hc : c = sep
    · simp [pySplit, hc]
    · simp only [pySplit, if_neg hc, List.headD_cons, List.mem_cons]
      rintro (rfl | hm)
      · exact hc rfl
      · exact ih hm

theorem get_ip_no_slash (s : PyStr) (h : '/' ∉ s) : get_ip_from_raw_address s = s := by
  rw [get_ip_from_raw_address, pySplit_not_mem _ _ h]
  rfl

theorem get_ip_no_slash_self (raw : PyStr) :
    '/' ∉ get_ip_from_raw_address raw :=
  pySplit_head_not_mem '/' raw

theorem split_address_get_ip (raw : PyStr) :
    split_address (get_ip_from_raw_address raw) = split_address raw := by
  rw [split_address, split_address,
    get_ip_no_slash _ (get_ip_no_slash_self raw)]

/-- Facts about the decimal representation of a byte value: it parses back to
the same value and contains neither a dot nor a slash. -/
theorem repr_byte_facts : ∀ n : Nat, n < 257 →
    pyInt (natReprL n) = some n ∧ ('.' ∈ natReprL n → False) ∧ ('/' ∈ natReprL n → False) := by
  decide

theorem join_no_slash (a : List Nat) (hb : ∀ x ∈ a, x ≤ 255) :
    '/' ∉ joinDotted (a.map natReprL) := by
  induction a with
  | nil => simp [joinDotted]
  | cons x t ih =>
    have hx : x ≤ 255 := hb x (List.mem_cons_self x t)
    have hxf := (repr_byte_facts x (by omega)).2.2
    cases t with
    | nil => simpa [joinDotted] using hxf
    | cons y t2 =>
      have ht : ∀ z ∈ y :: t2, z ≤ 255 := fun z hz => hb z (List.mem_cons_of_mem x hz)
      simp only [List.map_cons, joinDotted, List.mem_append, List.mem_cons]
      rintro (hm | hm | hm)
      · exact hxf hm
      · exact absurd hm (by decide)
      · exact (ih ht) (by simpa [joinDotted] using hm)

theorem mapPyInt_parts (a : List Nat) (ha : a ≠ []) (hb : ∀ x ∈ a, x ≤ 255) :
    mapPyInt (pySplit '.' (joinDotted (a.map natReprL))) = some a := by
  induction a with
  | nil => exact absurd rfl ha
  | cons x t ih =>
    have hx : x ≤ 255 := hb x (List.mem_cons_self x t)
    have hfacts := repr_byte_facts x (by omega)
    cases t with
    | nil =>
      rw [List.map_cons, List.map_nil, joinDotted, pySplit_not_mem _ _ hfacts.2.1]
      simp [mapPyInt, hfacts.1]
    | cons y t2 =>
      have ht : ∀ z ∈ y :: t2, z ≤ 255 := fun z hz => hb z (List.mem_cons_of_mem x hz)
      have hjoin : joinDotted ((x :: y :: t2).map natReprL) =
          natReprL x ++ '.' :: joinDotted ((y :: t2).map natReprL) := by
        simp [joinDotted]
      rw [hjoin, pySplit_append _ _ _ hfacts.2.1]
      have ihh := ih (by simp) ht
      simp only [List.map_cons] at ihh
      simp [mapPyInt, hfacts.1]
      rw [ihh]
      rfl

/-- Round trip: formatting a byte list and parsing it back is the identity. -/
theorem split_join (a : List Nat) (ha : a ≠ []) (hb : ∀ x ∈ a, x ≤ 255) :
    split_address (join_address a) = some a := by
  rw [split_address, join_address,
    get_ip_no_slash _ (join_no_slash a hb), mapPyInt_parts a ha hb]

/-! ### Helper lemmas about the mask computation -/

theorem maskLoop_eq : ∀ p : Nat, p ≤ 32 → maskLoop p = some (maskB p) := by
  decide

theorem maskB_four : ∀ p : Nat, p ≤ 32 → maskB p = [mB p 0, mB p 1, mB p 2, mB p 3] := by
  decide

theorem mB_le : ∀ p : Nat, p ≤ 32 → ∀ j, j < 4 → mB p j ≤ 255 := by
  decide

theorem maskB_bit : ∀ p : Nat, p ≤ 32 → ∀ i, i < 32 →
    addrBit (maskB p) i = decide (i < p) := by
  decide

theorem invert_maskB_bit : ∀ p : Nat, p ≤ 32 → ∀ i, i < 32 →
    addrBit (invert_address (maskB p)) i = !(decide (i < p)) := by
  decide

theorem maskLoopAux_append (l1 l2 m : List Nat) :
    maskLoopAux m (l1 ++ l2) =
      (maskLoopAux m l1).bind (fun m2 => maskLoopAux m2 l2) := by
  induction l1 generalizing m with
  | nil => simp [maskLoopAux]
  | cons bit rest ih =>
    simp only [List.cons_append, maskLoopAux]
    cases listAddAt m (bit / 8) (1 <<< (7 - bit % 8)) with
    | none => rfl
    | some m2 => exact ih m2

theorem maskLoop_33 : maskLoopAux [0, 0, 0, 0] (List.range 33) = none := by
  decide

theorem maskLoop_none (p : Nat) (h : 32 < p) : maskLoop p = none := by
  obtain ⟨k, rfl⟩ : ∃ k, p = 33 + k := ⟨p - 33, by omega⟩
  rw [maskLoop, List.range_add, maskLoopAux_append, maskLoop_33]
  rfl

/-! ### Helper lemmas for bit-level reasoning on 4-byte lists -/

theorem getD_and (j x0 x1 x2 x3 y0 y1 y2 y3 : Nat) :
    List.getD [x0 &&& y0, x1 &&& y1, x2 &&& y2, x3 &&& y3] j 0 =
      List.getD [x0, x1, x2, x3] j 0 &&& List.getD [y0, y1, y2, y3] j 0 := by
  rcases j with _ | (_ | (_ | (_ | j))) <;> simp [List.getD]

theorem getD_or (j x0 x1 x2 x3 y0 y1 y2 y3 : Nat) :
    List.getD [x0 ||| y0, x1 ||| y1, x2 ||| y2, x3 ||| y3] j 0 =
      List.getD [x0, x1, x2, x3] j 0 ||| List.getD [y0, y1, y2, y3] j 0 := by
  rcases j with _ | (_ | (_ | (_ | j))) <;> simp [List.getD]

theorem int_self_op (x : Int) : Int.land (Int.lor x x) x = x := by
  cases x with
  | ofNat m => simp [Int.lor, Int.land]
  | negSucc m => simp [Int.lor, Int.land]

/-! ### The derivation pipeline on a well-formed raw address -/

theorem incLast_four (x0 x1 x2 x3 : Nat) :
    incLast [x0, x1, x2, x3] = some [x0, x1, x2, x3 + 1] := rfl

theorem decLastInt_four (x0 x1 x2 x3 : Int) :
    decLastInt [x0, x1, x2, x3] = some [x0, x1, x2, x3 - 1] := rfl

theorem mem_four_le (x0 x1 x2 x3 c : Nat) (h0 : x0 ≤ c) (h1 : x1 ≤ c)
    (h2 : x2 ≤ c) (h3 : x3 ≤ c) : ∀ x ∈ [x0, x1, x2, x3], x ≤ c := by
  intro x hx
  simp only [List.mem_cons, List.not_mem_nil, or_false] at hx
  rcases hx with rfl | rfl | rfl | rfl <;> assumption

theorem pipeline_spec (raw : PyStr) (a0 a1 a2 a3 p : Nat)
    (hs : split_address raw = some [a0, a1, a2, a3])
    (hp : numBitsOf raw = some p) (hp32 : p ≤ 32)
    (h0 : a0 ≤ 255) (h1 : a1 ≤ 255) (h2 : a2 ≤ 255) (h3 : a3 ≤ 255) :
    get_network_mask raw = some (maskB p) ∧
    get_network_address_from_raw_address raw =
      some (join_address [a0 &&& mB p 0, a1 &&& mB p 1, a2 &&& mB p 2, a3 &&& mB p 3]) ∧
    get_first_usable_ip_address_from_raw_address raw =
      some (join_address [a0 &&& mB p 0, a1 &&& mB p 1, a2 &&& mB p 2, (a3 &&& mB p 3) + 1]) ∧
    get_broadcast_address_from_raw_address raw =
      some (join_address [a0 ||| (mB p 0 ^^^ 255), a1 ||| (mB p 1 ^^^ 255),
        a2 ||| (mB p 2 ^^^ 255), a3 ||| (mB p 3 ^^^ 255)]) ∧
    get_penultimate_usable_ip_address_from_raw_address raw =
      some (join_address_int [Int.ofNat (a0 ||| (mB p 0 ^^^ 255)),
        Int.ofNat (a1 ||| (mB p 1 ^^^ 255)),
        Int.ofNat (a2 ||| (mB p 2 ^^^ 255)),
        Int.ofNat (a3 ||| (mB p 3 ^^^ 255)) - 2]) := by
  have hmask : get_network_mask raw = some (maskB p) := by
    rw [get_network_mask, hp]
    exact maskLoop_eq p hp32
  have hm4 := maskB_four p hp32
  have hinv : invert_address (maskB p) =
      [mB p 0 ^^^ 255, mB p 1 ^^^ 255, mB p 2 ^^^ 255, mB p 3 ^^^ 255] := by
    rw [hm4]; simp [invert_address, FULL_BYTE]
  have hn0 : a0 &&& mB p 0 ≤ 255 := le_trans Nat.and_le_left h0
  have hn1 : a1 &&& mB p 1 ≤ 255 := le_trans Nat.and_le_left h1
  have hn2 : a2 &&& mB p 2 ≤ 255 := le_trans Nat.and_le_left h2
  have hn3 : a3 &&& mB p 3 ≤ 255 := le_trans Nat.and_le_left h3
  have hb256 : ∀ x m : Nat, x ≤ 255 → m ≤ 255 → x ||| (m ^^^ 255) ≤ 255 := by
    intro x m hx hm
    have hxor : m ^^^ 255 < 2 ^ 8 :=
      Nat.xor_lt_two_pow (by omega) (by norm_num)
    have := Nat.or_lt_two_pow (x := x) (y := m ^^^ 255) (n := 8) (by omega) hxor
    omega
  have hb0 : a0 ||| (mB p 0 ^^^ 255) ≤ 255 := hb256 a0 _ h0 (mB_le p hp32 0 (by norm_num))
  have hb1 : a1 ||| (mB p 1 ^^^ 255) ≤ 255 := hb256 a1 _ h1 (mB_le p hp32 1 (by norm_num))
  have hb2 : a2 ||| (mB p 2 ^^^ 255) ≤ 255 := hb256 a2 _ h2 (mB_le p hp32 2 (by norm_num))
  have hb3 : a3 ||| (mB p 3 ^^^ 255) ≤ 255 := hb256 a3 _ h3 (mB_le p hp32 3 (by norm_num))
  have hnet : get_network_address_from_raw_address raw =
      some (join_address [a0 &&& mB p 0, a1 &&& mB p 1, a2 &&& mB p 2, a3 &&& mB p 3]) := by
    rw [get_network_address_from_raw_address, hs, hmask, hm4]
    simp [andLoop]
  have hroundn := split_join [a0 &&& mB p 0, a1 &&& mB p 1, a2 &&& mB p 2, a3 &&& mB p 3]
    (by simp) (mem_four_le _ _ _ _ _ hn0 hn1 hn2 hn3)
  have hfirst : get_first_usable_ip_address_from_raw_address raw =
      some (join_address [a0 &&& mB p 0, a1 &&& mB p 1, a2 &&& mB p 2, (a3 &&& mB p 3) + 1]) := by
    rw [get_first_usable_ip_address_from_raw_address, hnet]
    simp [hroundn, incLast_four]
  have hbc : get_broadcast_address_from_raw_address raw =
      some (join_address [a0 ||| (mB p 0 ^^^ 255), a1 ||| (mB p 1 ^^^ 255),
        a2 ||| (mB p 2 ^^^ 255), a3 ||| (mB p 3 ^^^ 255)]) := by
    rw [get_broadcast_address_from_raw_address, split_address_get_ip, hs, hmask]
    simp [orLoop, hinv]
  have hroundb := split_join [a0 ||| (mB p 0 ^^^ 255), a1 ||| (mB p 1 ^^^ 255),
      a2 ||| (mB p 2 ^^^ 255), a3 ||| (mB p 3 ^^^ 255)]
    (by simp) (mem_four_le _ _ _ _ _ hb0 hb1 hb2 hb3)
  have hpen : get_penultimate_usable_ip_address_from_raw_address raw =
      some (join_address_int [Int.ofNat (a0 ||| (mB p 0 ^^^ 255)),
        Int.ofNat (a1 ||| (mB p 1 ^^^ 255)),
        Int.ofNat (a2 ||| (mB p 2 ^^^ 255)),
        Int.ofNat (a3 ||| (mB p 3 ^^^ 255)) - 2]) := by
    rw [get_penultimate_usable_ip_address_from_raw_address, hbc]
    simp only [Option.some_bind, Option.bind_eq_bind]
    simp [hroundb, decLastInt_four, int_self_op, sub_sub, one_add_one_eq_two]
  exact ⟨hmask, hnet, hfirst, hbc, hpen⟩

/-! ### Claim C1 -/

/-- C1 (counterexample): the claim says the IP-address value obtained from the
raw address `215.017.125.177/28` is `215.17.125.177`; but
`get_ip_from_raw_address` returns the address portion verbatim, so the value
is `215.017.125.177`, leading zeros included. -/
theorem C1_ip_value_counterexample :
    get_ip_from_raw_address ("215.017.125.177/28".toList) = "215.017.125.177".toList ∧
    get_ip_from_raw_address ("215.017.125.177/28".toList) ≠ "215.17.125.177".toList := by
  decide

/-- C1 (amended): parsing the address portion (`split_address`) and formatting
it back (`join_address`) reproduces the canonical decimal dotted form with
leading zeros normalized away — on `215.017.125.177/28` this round trip yields
`215.17.125.177`; however the `IP address` value printed by the program
(`get_ip_from_raw_address`) is the verbatim address portion
`215.017.125.177`. -/
theorem C1_roundtrip_normalizes (a : List Nat) (ha : a ≠ [])
    (hb : ∀ x ∈ a, x ≤ 255) :
    split_address (join_address a) = some a ∧
    split_address ("215.017.125.177/28".toList) = some [215, 17, 125, 177] ∧
    join_address [215, 17, 125, 177] = "215.17.125.177".toList ∧
    get_ip_from_raw_address ("215.017.125.177/28".toList) = "215.017.125.177".toList :=
  ⟨split_join a ha hb, by decide, by decide, by decide⟩

/-- C1 witness: the round trip of `C1_roundtrip_normalizes` at the concrete
byte list `[215, 17, 125, 177]`. -/
theorem C1_roundtrip_normalizes_witness :
    ([215, 17, 125, 177] : List Nat) ≠ [] ∧
    (∀ x ∈ ([215, 17, 125, 177] : List Nat), x ≤ 255) ∧
    split_address (join_address [215, 17, 125, 177]) = some [215, 17, 125, 177] :=
  ⟨by decide, by decide,
    (C1_roundtrip_normalizes [215, 17, 125, 177] (by decide) (by decide)).1⟩

/-! ### Claim C3 -/

/-- C3: for every numeric prefix length above 32 supplied in the raw address
(the raw-address grammar only admits unsigned decimal prefixes), the mask
computation hits an out-of-range list write `mask[bit // 8]` and raises
`IndexError` — a runtime fault, modelled as `none`; no defined error value is
ever returned. -/
theorem C3_oversized_prefix_faults (raw : PyStr) (p : Nat)
    (hp : numBitsOf raw = some p) (h : 32 < p) :
    get_network_mask raw = none := by
  rw [get_network_mask, hp]
  exact maskLoop_none p h

/-- C3 witness: the raw address `1.2.3.4/33` parses to prefix 33 and the mask
computation faults on it. -/
theorem C3_oversized_prefix_faults_witness :
    numBitsOf ("1.2.3.4/33".toList) = some 33 ∧ 32 < 33 ∧
    get_network_mask ("1.2.3.4/33".toList) = none :=
  ⟨by decide, by decide, C3_oversized_prefix_faults ("1.2.3.4/33".toList) 33 (by decide) (by decide)⟩

/-! ### Claim C4 -/

/-- C4: for every prefix length `p` in [0, 32] the mask computation succeeds,
and bit `i` of the mask (0-indexed from the most-significant bit of the first
byte) is 1 iff `i < p`; `p = 0` yields the all-zero mask, `p = 32` yields
`255.255.255.255`, and `p = 9` yields `[255, 128, 0, 0]`. -/
theorem C4_mask_bits (p : Nat) (hp : p ≤ 32) :
    maskLoop p = some (maskB p) ∧
    (∀ i, i < 32 → addrBit (maskB p) i = decide (i < p)) ∧
    (p = 0 → maskB p = [0, 0, 0, 0]) ∧
    (p = 32 → maskB p = [255, 255, 255, 255]) ∧
    maskB 9 = [255, 128, 0, 0] := by
  revert p
  decide

/-- C4 witness: the mask facts at prefix 9. -/
theorem C4_mask_bits_witness :
    (9 : Nat) ≤ 32 ∧ maskLoop 9 = some (maskB 9) ∧
    (∀ i, i < 32 → addrBit (maskB 9) i = decide (i < 9)) :=
  ⟨by decide, (C4_mask_bits 9 (by decide)).1, (C4_mask_bits 9 (by decide)).2.1⟩

/-! ### Claim C6 -/

/-- C6 (counterexample): the claim states the edge results are -1 at `p = 31`
and 0 at `p = 32`; the code computes `2 ** (32 - p) - 2`, which is 0 at
`p = 31` and -1 at `p = 32` — the claim has the two edge values swapped. -/
theorem C6_edge_values_counterexample :
    get_number_of_usable_hosts_from_raw_address ("0.0.0.0/31".toList) = some 0 ∧
    get_number_of_usable_hosts_from_raw_address ("0.0.0.0/31".toList) ≠ some (-1) ∧
    get_number_of_usable_hosts_from_raw_address ("0.0.0.0/32".toList) = some (-1) := by
  decide

/-- C6 (amended): for every prefix length `p` in [0, 32], the number of usable
hosts equals exactly `2 ^ (32 - p) - 2` as an exact integer, including the
edge results 0 at `p = 31` and -1 at `p = 32`, with no clamping; it is
16777214 for `91.124.230.205/8`. -/
theorem C6_host_count (raw : PyStr) (p : Nat)
    (hp : numBitsOf raw = some p) (h32 : p ≤ 32) :
    get_number_of_usable_hosts_from_raw_address raw = some ((2 : Int) ^ (32 - p) - 2) ∧
    (p = 31 → get_number_of_usable_hosts_from_raw_address raw = some 0) ∧
    (p = 32 → get_number_of_usable_hosts_from_raw_address raw = some (-1)) ∧
    get_number_of_usable_hosts_from_raw_address ("91.124.230.205/8".toList) = some 16777214 := by
  have hmain : get_number_of_usable_hosts_from_raw_address raw =
      some ((2 : Int) ^ (32 - p) - 2) := by
    rw [get_number_of_usable_hosts_from_raw_address, hp]
    simp [h32]
  refine ⟨hmain, ?_, ?_, by decide⟩
  · rintro rfl
    rw [hmain]
    norm_num
  · rintro rfl
    rw [hmain]
    norm_num

/-- C6 witness: the host-count formula at `91.124.230.205/8`. -/
theorem C6_host_count_witness :
    numBitsOf ("91.124.230.205/8".toList) = some 8 ∧ (8 : Nat) ≤ 32 ∧
    get_number_of_usable_hosts_from_raw_address ("91.124.230.205/8".toList) =
      some ((2 : Int) ^ (32 - 8) - 2) :=
  ⟨by decide, by decide,
    (C6_host_count ("91.124.230.205/8".toList) 8 (by decide) (by decide)).1⟩

/-! ### Claim C5 -/

/-- C5: for every well-formed raw address (4 octets in [0,255], prefix in
[0,32]), the first usable address is exactly the network address with its last
byte incremented by 1 and the other bytes unchanged, and the penultimate
usable address is exactly the broadcast address with its last byte decremented
by 2 and the other bytes unchanged; no carry or borrow propagates into the
preceding bytes. -/
theorem C5_last_byte_only (raw : PyStr) (a0 a1 a2 a3 p : Nat)
    (hs : split_address raw = some [a0, a1, a2, a3])
    (hp : numBitsOf raw = some p) (hp32 : p ≤ 32)
    (h0 : a0 ≤ 255) (h1 : a1 ≤ 255) (h2 : a2 ≤ 255) (h3 : a3 ≤ 255) :
    get_network_address_from_raw_address raw =
      some (join_address [a0 &&& mB p 0, a1 &&& mB p 1, a2 &&& mB p 2, a3 &&& mB p 3]) ∧
    get_first_usable_ip_address_from_raw_address raw =
      some (join_address [a0 &&& mB p 0, a1 &&& mB p 1, a2 &&& mB p 2, (a3 &&& mB p 3) + 1]) ∧
    get_broadcast_address_from_raw_address raw =
      some (join_address [a0 ||| (mB p 0 ^^^ 255), a1 ||| (mB p 1 ^^^ 255),
        a2 ||| (mB p 2 ^^^ 255), a3 ||| (mB p 3 ^^^ 255)]) ∧
    get_penultimate_usable_ip_address_from_raw_address raw =
      some (join_address_int [Int.ofNat (a0 ||| (mB p 0 ^^^ 255)),
        Int.ofNat (a1 ||| (mB p 1 ^^^ 255)),
        Int.ofNat (a2 ||| (mB p 2 ^^^ 255)),
        Int.ofNat (a3 ||| (mB p 3 ^^^ 255)) - 2]) := by
  obtain ⟨-, hnet, hfirst, hbc, hpen⟩ :=
    pipeline_spec raw a0 a1 a2 a3 p hs hp hp32 h0 h1 h2 h3
  exact ⟨hnet, hfirst, hbc, hpen⟩

/-- C5 witness: the first-usable equation at the concrete raw address
`215.017.125.177/28`. -/
theorem C5_last_byte_only_witness :
    split_address ("215.017.125.177/28".toList) = some [215, 17, 125, 177] ∧
    numBitsOf ("215.017.125.177/28".toList) = some 28 ∧ (28 : Nat) ≤ 32 ∧
    get_first_usable_ip_address_from_raw_address ("215.017.125.177/28".toList) =
      some (join_address [215 &&& mB 28 0, 17 &&& mB 28 1, 125 &&& mB 28 2,
        (177 &&& mB 28 3) + 1]) :=
  ⟨by decide, by decide, by decide,
    (C5_last_byte_only ("215.017.125.177/28".toList) 215 17 125 177 28
      (by decide) (by decide) (by decide) (by decide) (by decide) (by decide) (by decide)).2.1⟩

/-! ### Claim C2 -/

/-- C2 (counterexample): the claim says every Byte Address value produced by
the operations stays within [0,255] for every well-formed raw address; but on
`0.0.0.255/32` the first-usable computation increments the parsed network
address `[0, 0, 0, 255]` to `[0, 0, 0, 256]`, whose last byte exceeds 255. -/
theorem C2_byte_range_counterexample :
    get_network_address_from_raw_address ("0.0.0.255/32".toList) = some ("0.0.0.255".toList) ∧
    split_address ("0.0.0.255".toList) = some [0, 0, 0, 255] ∧
    incLast [0, 0, 0, 255] = some [0, 0, 0, 256] ∧
    get_first_usable_ip_address_from_raw_address ("0.0.0.255/32".toList) =
      some ("0.0.0.256".toList) ∧
    ¬(256 ≤ 255) := by
  decide

theorem or_inv_le (x m : Nat) (hx : x ≤ 255) (hm : m ≤ 255) :
    x ||| (m ^^^ 255) ≤ 255 := by
  have hxor : m ^^^ 255 < 2 ^ 8 := Nat.xor_lt_two_pow (by omega) (by norm_num)
  have := Nat.or_lt_two_pow (x := x) (y := m ^^^ 255) (n := 8) (by omega) hxor
  omega

/-- C2 (amended): for every well-formed raw address (octets in [0,255], prefix
in [0,32]) the network mask, network address and broadcast address are
sequences of exactly 4 integers in [0,255]; the first-usable and
penultimate-usable values are 4-integer sequences whose first three entries
are in [0,255], but whose last entry lies in [1,256] (first usable) and in
[-2,253] (penultimate usable) — it can leave [0,255] because the last byte is
incremented and decremented without carry or borrow. -/
theorem C2_byte_ranges (raw : PyStr) (a0 a1 a2 a3 p : Nat)
    (hs : split_address raw = some [a0, a1, a2, a3])
    (hp : numBitsOf raw = some p) (hp32 : p ≤ 32)
    (h0 : a0 ≤ 255) (h1 : a1 ≤ 255) (h2 : a2 ≤ 255) (h3 : a3 ≤ 255) :
    get_network_mask raw = some (maskB p) ∧
    (maskB p).length = 4 ∧
    (∀ x ∈ maskB p, x ≤ 255) ∧
    (∀ x ∈ [a0 &&& mB p 0, a1 &&& mB p 1, a2 &&& mB p 2, a3 &&& mB p 3], x ≤ 255) ∧
    (∀ x ∈ [a0 ||| (mB p 0 ^^^ 255), a1 ||| (mB p 1 ^^^ 255),
      a2 ||| (mB p 2 ^^^ 255), a3 ||| (mB p 3 ^^^ 255)], x ≤ 255) ∧
    get_first_usable_ip_address_from_raw_address raw =
      some (join_address [a0 &&& mB p 0, a1 &&& mB p 1, a2 &&& mB p 2, (a3 &&& mB p 3) + 1]) ∧
    (1 ≤ (a3 &&& mB p 3) + 1 ∧ (a3 &&& mB p 3) + 1 ≤ 256) ∧
    get_penultimate_usable_ip_address_from_raw_address raw =
      some (join_address_int [Int.ofNat (a0 ||| (mB p 0 ^^^ 255)),
        Int.ofNat (a1 ||| (mB p 1 ^^^ 255)),
        Int.ofNat (a2 ||| (mB p 2 ^^^ 255)),
        Int.ofNat (a3 ||| (mB p 3 ^^^ 255)) - 2]) ∧
    (-2 ≤ Int.ofNat (a3 ||| (mB p 3 ^^^ 255)) - 2 ∧
      Int.ofNat (a3 ||| (mB p 3 ^^^ 255)) - 2 ≤ 253) := by
  obtain ⟨hmask, -, hfirst, -, hpen⟩ :=
    pipeline_spec raw a0 a1 a2 a3 p hs hp hp32 h0 h1 h2 h3
  have hm4 := maskB_four p hp32
  have hn0 : a0 &&& mB p 0 ≤ 255 := le_trans Nat.and_le_left h0
  have hn1 : a1 &&& mB p 1 ≤ 255 := le_trans Nat.and_le_left h1
  have hn2 : a2 &&& mB p 2 ≤ 255 := le_trans Nat.and_le_left h2
  have hn3 : a3 &&& mB p 3 ≤ 255 := le_trans Nat.and_le_left h3
  have hb0 := or_inv_le a0 (mB p 0) h0 (mB_le p hp32 0 (by norm_num))
  have hb1 := or_inv_le a1 (mB p 1) h1 (mB_le p hp32 1 (by norm_num))
  have hb2 := or_inv_le a2 (mB p 2) h2 (mB_le p hp32 2 (by norm_num))
  have hb3 := or_inv_le a3 (mB p 3) h3 (mB_le p hp32 3 (by norm_num))
  refine ⟨hmask, ?_, ?_, ?_, ?_, hfirst, ⟨by omega, by omega⟩, hpen,
    ⟨by simp only [Int.ofNat_eq_natCast]; omega, by simp only [Int.ofNat_eq_natCast]; omega⟩⟩
  · rw [hm4]; rfl
  · rw [hm4]
    exact mem_four_le _ _ _ _ _ (mB_le p hp32 0 (by norm_num)) (mB_le p hp32 1 (by norm_num))
      (mB_le p hp32 2 (by norm_num)) (mB_le p hp32 3 (by norm_num))
  · exact mem_four_le _ _ _ _ _ hn0 hn1 hn2 hn3
  · exact mem_four_le _ _ _ _ _ hb0 hb1 hb2 hb3

/-- C2 witness: the amended range facts at the concrete raw address
`91.124.230.205/30`. -/
theorem C2_byte_ranges_witness :
    split_address ("91.124.230.205/30".toList) = some [91, 124, 230, 205] ∧
    numBitsOf ("91.124.230.205/30".toList) = some 30 ∧ (30 : Nat) ≤ 32 ∧
    (1 ≤ (205 &&& mB 30 3) + 1 ∧ (205 &&& mB 30 3) + 1 ≤ 256) :=
  ⟨by decide, by decide, by decide,
    (C2_byte_ranges ("91.124.230.205/30".toList) 91 124 230 205 30
      (by decide) (by decide) (by decide) (by decide) (by decide) (by decide)
      (by decide)).2.2.2.2.2.2.1⟩

/-! ### Claim C7 -/

/-- C7: the IP class determined from the first octet is A for [1,126], B for
[128,191], C for [192,223], D for [224,239], E for [240,247], and the unknown
answer (`Unknown class`) for every other octet value (0, 127, 248-255); the
class of `225.124.230.205/30` is D. -/
theorem C7_ip_class (raw : PyStr) (a0 : Nat) (rest : List Nat)
    (hs : split_address raw = some (a0 :: rest)) (ha : a0 ≤ 255) :
    (1 ≤ a0 ∧ a0 ≤ 126 → get_ip_class_from_raw_address raw = some ['A']) ∧
    (128 ≤ a0 ∧ a0 ≤ 191 → get_ip_class_from_raw_address raw = some ['B']) ∧
    (192 ≤ a0 ∧ a0 ≤ 223 → get_ip_class_from_raw_address raw = some ['C']) ∧
    (224 ≤ a0 ∧ a0 ≤ 239 → get_ip_class_from_raw_address raw = some ['D']) ∧
    (240 ≤ a0 ∧ a0 ≤ 247 → get_ip_class_from_raw_address raw = some ['E']) ∧
    (a0 = 0 ∨ a0 = 127 ∨ (248 ≤ a0 ∧ a0 ≤ 255) →
      get_ip_class_from_raw_address raw = some ("Unknown class".toList)) ∧
    get_ip_class_from_raw_address ("225.124.230.205/30".toList) = some ['D'] := by
  have hcls : get_ip_class_from_raw_address raw =
      some (if 1 ≤ a0 ∧ a0 ≤ 126 then ['A']
        else if 128 ≤ a0 ∧ a0 ≤ 191 then ['B']
        else if 192 ≤ a0 ∧ a0 ≤ 223 then ['C']
        else if 224 ≤ a0 ∧ a0 ≤ 239 then ['D']
        else if 240 ≤ a0 ∧ a0 ≤ 247 then ['E']
        else "Unknown class".toList) := by
    rw [get_ip_class_from_raw_address, hs]
    rfl
  refine ⟨?_, ?_, ?_, ?_, ?_, ?_, by decide⟩
  · intro h; rw [hcls, if_pos h]
  · intro h; rw [hcls, if_neg (by omega), if_pos h]
  · intro h; rw [hcls, if_neg (by omega), if_neg (by omega), if_pos h]
  · intro h; rw [hcls, if_neg (by omega), if_neg (by omega), if_neg (by omega), if_pos h]
  · intro h
    rw [hcls, if_neg (by omega), if_neg (by omega), if_neg (by omega), if_neg (by omega),
      if_pos h]
  · intro h
    rcases h with rfl | rfl | ⟨h1, h2⟩
    · rw [hcls]; norm_num
    · rw [hcls]; norm_num
    · rw [hcls, if_neg (by omega), if_neg (by omega), if_neg (by omega), if_neg (by omega),
        if_neg (by omega)]

/-- C7 witness: the classification at the concrete raw address
`225.124.230.205/30`, whose first octet 225 lies in the D range. -/
theorem C7_ip_class_witness :
    split_address ("225.124.230.205/30".toList) = some (225 :: [124, 230, 205]) ∧
    (225 : Nat) ≤ 255 ∧ (224 ≤ 225 ∧ 225 ≤ 239) ∧
    get_ip_class_from_raw_address ("225.124.230.205/30".toList) = some ['D'] :=
  ⟨by decide, by decide, by decide,
    (C7_ip_class ("225.124.230.205/30".toList) 225 [124, 230, 205]
      (by decide) (by decide)).2.2.2.1 (by decide)⟩

/-! ### Claim C9 -/

/-- C9: for every prefix length `p` in [0,32] and every address with octets in
[0,255], the network address (bytewise AND of the address with the mask for
`p`) has its lowest `32 - p` bits — the bits at most-significant-first
positions `p..31` — equal to zero. -/
theorem C9_network_low_bits_zero (p a0 a1 a2 a3 : Nat) (hp : p ≤ 32)
    (h0 : a0 ≤ 255) (h1 : a1 ≤ 255) (h2 : a2 ≤ 255) (h3 : a3 ≤ 255)
    (i : Nat) (hpi : p ≤ i) (hi : i < 32) :
    addrBit ((andLoop [a0, a1, a2, a3] (maskB p)).getD []) i = false := by
  have hm4 := maskB_four p hp
  rw [hm4]
  show addrBit [a0 &&& mB p 0, a1 &&& mB p 1, a2 &&& mB p 2, a3 &&& mB p 3] i = false
  have hmb : (List.getD [mB p 0, mB p 1, mB p 2, mB p 3] (i / 8) 0).testBit (7 - i % 8) =
      decide (i < p) := by
    have hbit := maskB_bit p hp i hi
    rw [addrBit, hm4] at hbit
    exact hbit
  rw [addrBit, getD_and, Nat.testBit_land, hmb, decide_eq_false (by omega)]
  exact Bool.and_false _

/-- C9 witness: at `91.124.230.205` with prefix 30, host bit 31 of the network
address is zero. -/
theorem C9_network_low_bits_zero_witness :
    (30 : Nat) ≤ 32 ∧ (30 : Nat) ≤ 31 ∧ (31 : Nat) < 32 ∧
    addrBit ((andLoop [91, 124, 230, 205] (maskB 30)).getD []) 31 = false :=
  ⟨by decide, by decide, by decide,
    C9_network_low_bits_zero 30 91 124 230 205 (by decide) (by decide) (by decide)
      (by decide) (by decide) 31 (by decide) (by decide)⟩

/-! ### Claim C10 -/

/-- C10: for every prefix length `p` in [0,32] and every address with octets
in [0,255], the broadcast address (bytewise OR of the address with the
complemented mask) has its lowest `32 - p` bits — the bits at
most-significant-first positions `p..31` — all set to one. -/
theorem C10_broadcast_low_bits_one (p a0 a1 a2 a3 : Nat) (hp : p ≤ 32)
    (h0 : a0 ≤ 255) (h1 : a1 ≤ 255) (h2 : a2 ≤ 255) (h3 : a3 ≤ 255)
    (i : Nat) (hpi : p ≤ i) (hi : i < 32) :
    addrBit ((orLoop [a0, a1, a2, a3] (invert_address (maskB p))).getD []) i = true := by
  have hm4 := maskB_four p hp
  have hinv : invert_address (maskB p) =
      [mB p 0 ^^^ 255, mB p 1 ^^^ 255, mB p 2 ^^^ 255, mB p 3 ^^^ 255] := by
    rw [hm4]; simp [invert_address, FULL_BYTE]
  rw [hinv]
  show addrBit [a0 ||| (mB p 0 ^^^ 255), a1 ||| (mB p 1 ^^^ 255),
    a2 ||| (mB p 2 ^^^ 255), a3 ||| (mB p 3 ^^^ 255)] i = true
  have hmb : (List.getD [mB p 0 ^^^ 255, mB p 1 ^^^ 255, mB p 2 ^^^ 255, mB p 3 ^^^ 255]
      (i / 8) 0).testBit (7 - i % 8) = !(decide (i < p)) := by
    have hbit := invert_maskB_bit p hp i hi
    rw [addrBit, hinv] at hbit
    exact hbit
  rw [addrBit, getD_or, Nat.testBit_lor, hmb, decide_eq_false (by omega)]
  simp

/-- C10 witness: at address `10.20.30.40` with prefix 9, host bit 20 of the
broadcast address is one. -/
theorem C10_broadcast_low_bits_one_witness :
    (9 : Nat) ≤ 32 ∧ (9 : Nat) ≤ 20 ∧ (20 : Nat) < 32 ∧
    addrBit ((orLoop [10, 20, 30, 40] (invert_address (maskB 9))).getD []) 20 = true :=
  ⟨by decide, by decide, by decide,
    C10_broadcast_low_bits_one 9 10 20 30 40 (by decide) (by decide) (by decide)
      (by decide) (by decide) 20 (by decide) (by decide)⟩

/-! ### Claim C8 -/

/-- C8: the private-address check returns true if and only if the first octet
is 10, or the first octet is 172 and the second is in [16,31], or the first
two octets are 192 and 168; `172.25.255.255/8` is private while `172.32.0.0/8`
is not. -/
theorem C8_private_check (raw : PyStr) (a0 a1 : Nat) (rest : List Nat)
    (hs : split_address raw = some (a0 :: a1 :: rest)) :
    check_private_ip_address_from_raw_address raw =
      some (decide (a0 = 10 ∨ (a0 = 172 ∧ 16 ≤ a1 ∧ a1 ≤ 31) ∨ (a0 = 192 ∧ a1 = 168))) ∧
    check_private_ip_address_from_raw_address ("172.25.255.255/8".toList) = some true ∧
    check_private_ip_address_from_raw_address ("172.32.0.0/8".toList) = some false := by
  refine ⟨?_, by decide, by decide⟩
  rw [check_private_ip_address_from_raw_address, hs]
  by_cases h172 : a0 = 172
  · subst h172
    simp [List.take]
  · simp [h172, List.take]

/-- C8 witness: the private check at the concrete raw address
`172.25.255.255/8`, whose first two octets fall in the second private block. -/
theorem C8_private_check_witness :
    split_address ("172.25.255.255/8".toList) = some (172 :: 25 :: [255, 255]) ∧
    check_private_ip_address_from_raw_address ("172.25.255.255/8".toList) =
      some (decide (172 = 10 ∨ (172 = 172 ∧ 16 ≤ 25 ∧ 25 ≤ 31) ∨ (172 = 192 ∧ 25 = 168))) :=
  ⟨by decide,
    (C8_private_check ("172.25.255.255/8".toList) 172 25 [255, 255] (by decide)).1⟩
